import Mathlib

/-- The Levenshtein distance of Mathlib with the unit cost structure:
an independent formalisation of the classic edit distance (minimum
number of single-character insertions, deletions and substitutions),
used to check the recurrence-based specification against a definition
not written for this repository. -/
def classicLevenshtein (a b : List Char) : Nat :=
  levenshtein Levenshtein.defaultCost a b

/-!
Verification of the API-key replacement workflow of the settings page
(file src/app/(home)/settings/page.tsx).

The development embeds the four core pure functions of the page
(maskKey, firstDiff, levenshtein, the canSave gate) together with the
transient dialog state and its transition handlers (onOpenChange,
handleSave and the field setters), and proves the specified properties
about them.  JavaScript-specific behaviour (undefined for out-of-range
indexing, slice with a negative start, the slice(-0) corner case,
truthiness of strings) is modelled explicitly.
-/

namespace SettingsPage

/-! ## Masker -/

/-- JavaScript s.slice(-n) for a non-negative number n: for n positive
the characters from position max(length - n, 0) to the end; for n = 0
the whole string, because -0 is not below 0 so slice starts at index 0. -/
def sliceNeg (s : String) (n : Nat) : String :=
  if n = 0 then s else String.mk (s.toList.drop (s.length - n))

/-- Embedding of maskKey: show the em dash placeholder for an absent or
empty key; otherwise the constant marker followed by
key.slice(-Math.max(0, Math.min(suffix, key.length))). -/
def maskKey (key : Option String) (suffix : Int := 4) : String :=
  match key with
  | none => "—"
  | some k =>
    if k.length = 0 then "—"
    else
      let clamped : Int := max 0 (min suffix (k.length : Int))
      let vis := sliceNeg k clamped.toNat
      "sk-…" ++ vis

/-- The last n characters of a string (all of it when n exceeds the
length); used to state what the suffix window of the mask must be. -/
def lastChars (s : String) (n : Nat) : String :=
  String.mk (s.toList.drop (s.length - n))

/-! ## Derived checks of the dialog -/

/-- Embedding of bothEntered: newKey.length > 0 AND confirmKey.length > 0. -/
def bothEntered (newKey confirmKey : String) : Bool :=
  decide (0 < newKey.length) && decide (0 < confirmKey.length)

/-- Embedding of the derived value named matches in the source
(keysMatch in the data model of the spec; the word matches is reserved
in Lean): bothEntered AND newKey === confirmKey. -/
def keysMatch (newKey confirmKey : String) : Bool :=
  bothEntered newKey confirmKey && (newKey == confirmKey)

/-- Embedding of the canSave expression as a function of the four
boolean conditions it combines:
matches AND ackReplace AND (NOT suspiciousSmallEdit OR forceSmallChange). -/
def canSaveGate (matchesFlag acknowledged smallEditDetected smallEditOverridden : Bool) : Bool :=
  matchesFlag && acknowledged && (!smallEditDetected || smallEditOverridden)

/-! ## EditDistance: embedding of the iterative DP of the source -/

/-- One row of the DP table of the source, as a function of the column
index j.  Given the previous row dpPrev (row i) and the cost function
for the current character of a (cost j compares a[i] with b[j]), the
row satisfies row 0 = start (the source initialises dp[i][0] = i) and
row (j+1) = min(dpPrev (j+1) + 1, row j + 1, dpPrev j + cost j),
exactly the recurrence of the nested loop. -/
def levDProw (cost : Nat → Nat) (start : Nat) (dpPrev : Nat → Nat) : Nat → Nat
  | 0 => start
  | j + 1 =>
      min (dpPrev (j + 1) + 1)
        (min (levDProw cost start dpPrev j + 1) (dpPrev j + cost j))

/-- The DP table of the source as a curried function: levDP a b i j is
the entry dp[i][j].  Row 0 is the index sequence dp[0][j] = j, row i+1
starts with dp[i+1][0] = i+1 and is filled by levDProw from row i with
cost(j) = (a[i] === b[j] ? 0 : 1), matching the table initialisation
and the nested loops of the source (there i runs over 1..m with
character a[i-1], here rows are indexed so that row i+1 uses a[i]). -/
def levDP (a b : List Char) : Nat → Nat → Nat
  | 0 => fun j => j
  | i + 1 =>
      levDProw (fun j => if a.get? i = b.get? j then 0 else 1) (i + 1) (levDP a b i)

/-- Embedding of the levenshtein function of the source: early returns
for an empty argument, otherwise the bottom-right entry dp[m][n] of the
table. -/
def levenshtein (a b : String) : Nat :=
  let m := a.length
  let n := b.length
  if m = 0 then n
  else if n = 0 then m
  else levDP a.toList b.toList m n

/-! ## The classic Levenshtein recurrence, as the specification states it -/

/-- Helper making the classic recurrence structurally recursive: the
distance from x :: a to b as a function of b, given the distance
function from a. -/
def levSpecCons (x : Char) (levA : List Char → Nat) : List Char → Nat
  | [] => levA [] + 1
  | y :: b =>
      min (levA (y :: b) + 1)
        (min (levSpecCons x levA b + 1) (levA b + if x = y then 0 else 1))

/-- Modelled from the spec: the classic Levenshtein edit distance given
by the base cases distance([], b) = length b, distance(a, []) = length a
and the recurrence taking the minimum of a deletion, an insertion and a
substitution whose cost is 0 exactly on equal characters. -/
def levSpec : List Char → List Char → Nat
  | [], b => b.length
  | x :: a, b => levSpecCons x (levSpec a) b

/-! ## distanceFromCurrent, the small-edit guard and the divergence memo -/

/-- Embedding of distanceFromCurrent: Infinity (here none) when the
stored key or the candidate is absent or empty (JavaScript truthiness),
otherwise the Levenshtein distance between them. -/
def distanceFromCurrent (apiKey : Option String) (newKey : String) : Option Nat :=
  match apiKey with
  | none => none
  | some k => if k.isEmpty || newKey.isEmpty then none else some (levenshtein k newKey)

/-- Embedding of the SMALL_CHANGE_THRESHOLD constant. -/
def SMALL_CHANGE_THRESHOLD : Nat := 2

/-- Embedding of suspiciousSmallEdit: isFinite(distanceFromCurrent)
(here: the distance is not the Infinity marker) AND the distance is at
most the threshold. -/
def suspiciousSmallEdit (apiKey : Option String) (newKey : String) : Bool :=
  match distanceFromCurrent apiKey newKey with
  | none => false
  | some d => decide (d ≤ SMALL_CHANGE_THRESHOLD)

/-! ## DivergenceLocator -/

/-- JavaScript a[i] on a string: the character at index i, or undefined
(here none) when i is out of range. -/
def jsCharAt (s : String) (i : Nat) : Option Char :=
  s.toList.get? i

/-- JavaScript s.slice(start, stop) for non-negative arguments: the
characters of the half-open range [start, stop), clipped to the string. -/
def jsSlice (s : String) (start stop : Nat) : String :=
  String.mk ((s.toList.drop start).take (stop - start))

/-- The record returned by firstDiff: the first differing index and the
two context windows. -/
structure DiffReport where
  index : Nat
  left : String
  right : String
deriving DecidableEq, Repr

/-- The loop of firstDiff: scan indices upward from i; fuel counts the
remaining iterations (the source runs i from 0 while i < max).  On the
first index whose characters differ (undefined counting as different
from every character), build the report with the shared context window
[max(0, i-3), min(maxLen, i+4)). -/
def firstDiffGo (a b : String) (maxLen : Nat) : Nat → Nat → Option DiffReport
  | _, 0 => none
  | i, fuel + 1 =>
      if jsCharAt a i ≠ jsCharAt b i then
        let start := i - 3
        let stop := min maxLen (i + 4)
        some ⟨i, jsSlice a start stop, jsSlice b start stop⟩
      else firstDiffGo a b maxLen (i + 1) fuel

/-- Embedding of firstDiff: run the scan over 0 ≤ i < max(len a, len b);
null (here none) when no index differs, which happens exactly for equal
strings. -/
def firstDiff (a b : String) : Option DiffReport :=
  let maxLen := max a.length b.length
  firstDiffGo a b maxLen 0 maxLen

/-- Embedding of the diff memo of the page: null when the stored key or
the candidate is absent or empty, otherwise firstDiff on them. -/
def diffMemo (apiKey : Option String) (newKey : String) : Option DiffReport :=
  match apiKey with
  | none => none
  | some k => if k.isEmpty || newKey.isEmpty then none else firstDiff k newKey

/-! ## The transient dialog state and its transitions -/

/-- The transient state of the replacement dialog: the open flag and
the four staged fields (candidate key, confirmation key, the
acknowledgement toggle and the small-edit override toggle). -/
structure PageState where
  isOpen : Bool
  newKey : String
  confirmKey : String
  ackReplace : Bool
  forceSmallChange : Bool
deriving DecidableEq, Repr

/-- Embedding of the canSave derived value of the page, as the gate
applied to the four derived conditions. -/
def canSave (apiKey : Option String) (s : PageState) : Bool :=
  canSaveGate (keysMatch s.newKey s.confirmKey) s.ackReplace
    (suspiciousSmallEdit apiKey s.newKey) s.forceSmallChange

/-- Embedding of onOpenChange: set the open flag to next and, only when
opening, reset the four staged fields to their initial values. -/
def onOpenChange (s : PageState) (next : Bool) : PageState :=
  if next then
    { isOpen := next, newKey := "", confirmKey := "", ackReplace := false,
      forceSmallChange := false }
  else
    { s with isOpen := next }

/-- Embedding of handleSave: when canSave fails, return with no change
and no store call; otherwise call setApiKey with the candidate (the
second component records the at-most-one store call of the step) and
close the dialog. -/
def handleSave (apiKey : Option String) (s : PageState) : PageState × Option String :=
  if canSave apiKey s then ({ s with isOpen := false }, some s.newKey)
  else (s, none)

/-- The events the dialog reacts to: the dialog open/close callback,
the input and toggle setters, the Cancel button (which calls
setOpen(false) directly) and the Save button. -/
inductive Event where
  | openChange : Bool → Event
  | setNewKey : String → Event
  | setConfirmKey : String → Event
  | setAckReplace : Bool → Event
  | setForceSmallChange : Bool → Event
  | clickCancel : Event
  | clickSave : Event
deriving DecidableEq, Repr

/-- One step of the workflow: the state after the event together with
the argument of the setApiKey store call when the event makes one. -/
def step (apiKey : Option String) (s : PageState) : Event → PageState × Option String
  | .openChange next => (onOpenChange s next, none)
  | .setNewKey v => ({ s with newKey := v }, none)
  | .setConfirmKey v => ({ s with confirmKey := v }, none)
  | .setAckReplace v => ({ s with ackReplace := v }, none)
  | .setForceSmallChange v => ({ s with forceSmallChange := v }, none)
  | .clickCancel => ({ s with isOpen := false }, none)
  | .clickSave => handleSave apiKey s

/-! ## Helper lemmas: strings -/

/-- A string has positive length exactly when it is not empty. -/
theorem length_pos_iff (s : String) : 0 < s.length ↔ s ≠ "" := by
  constructor
  · intro h he
    subst he
    exact (by decide : ¬ (0 < "".length)) h
  · intro h
    by_contra h0
    have hz : s.length = 0 := by omega
    apply h
    apply String.ext
    have hd : s.data = [] := List.length_eq_zero.mp hz
    rw [hd]

/-! ## Helper lemmas: the classic recurrence levSpec -/

/-- Base case of the recurrence on the left argument. -/
theorem levSpec_nil_left (b : List Char) : levSpec [] b = b.length := rfl

/-- Base case of the recurrence on the right argument. -/
theorem levSpec_nil_right (a : List Char) : levSpec a [] = a.length := by
  induction a with
  | nil => rfl
  | cons x a ih => simp [levSpec, levSpecCons, ih]

/-- The cons-cons step of the recurrence, as one equation. -/
theorem levSpec_cons_cons (x y : Char) (a b : List Char) :
    levSpec (x :: a) (y :: b) =
      min (levSpec a (y :: b) + 1)
        (min (levSpec (x :: a) b + 1)
          (levSpec a b + if x = y then 0 else 1)) := rfl

set_option maxHeartbeats 1600000 in
/-- The recurrence also holds at the last position of both lists: the
distance satisfies the same three-way minimum when a character is
appended to each argument. -/
theorem levSpec_snoc (x y : Char) :
    ∀ a b : List Char,
      levSpec (a ++ [x]) (b ++ [y]) =
        min (levSpec a (b ++ [y]) + 1)
          (min (levSpec (a ++ [x]) b + 1)
            (levSpec a b + if x = y then 0 else 1)) := by
  intro a
  induction a with
  | nil =>
    intro b
    induction b with
    | nil => rfl
    | cons z zs ihb =>
      have h1 : levSpec [x] (zs ++ [y]) =
          min (levSpec [] (zs ++ [y]) + 1)
            (min (levSpec [x] zs + 1) (levSpec [] zs + if x = y then 0 else 1)) := by
        simpa using ihb
      simp only [List.nil_append, List.cons_append]
      rw [levSpec_cons_cons x z [] (zs ++ [y]),
        levSpec_cons_cons x z [] zs, h1]
      simp only [levSpec_nil_left, List.length_append, List.length_cons,
        List.length_nil]
      omega
  | cons w ws iha =>
    intro b
    induction b with
    | nil =>
      have h1 : levSpec (ws ++ [x]) [y] =
          min (levSpec ws [y] + 1)
            (min (levSpec (ws ++ [x]) [] + 1)
              (levSpec ws [] + if x = y then 0 else 1)) := by
        simpa using iha []
      simp only [List.nil_append, List.cons_append]
      rw [levSpec_cons_cons w y (ws ++ [x]) [],
        levSpec_cons_cons w y ws [], h1]
      simp only [levSpec_nil_right, List.length_append, List.length_cons,
        List.length_nil]
      omega
    | cons z zs ihb =>
      have h1 : levSpec (ws ++ [x]) (z :: (zs ++ [y])) =
          min (levSpec ws (z :: (zs ++ [y])) + 1)
            (min (levSpec (ws ++ [x]) (z :: zs) + 1)
              (levSpec ws (z :: zs) + if x = y then 0 else 1)) := by
        have := iha (z :: zs)
        simpa using this
      have h2 : levSpec (w :: (ws ++ [x])) (zs ++ [y]) =
          min (levSpec (w :: ws) (zs ++ [y]) + 1)
            (min (levSpec (w :: (ws ++ [x])) zs + 1)
              (levSpec (w :: ws) zs + if x = y then 0 else 1)) := by
        simpa using ihb
      have h3 : levSpec (ws ++ [x]) (zs ++ [y]) =
          min (levSpec ws (zs ++ [y]) + 1)
            (min (levSpec (ws ++ [x]) zs + 1)
              (levSpec ws zs + if x = y then 0 else 1)) := by
        simpa using iha zs
      simp only [List.cons_append]
      rw [levSpec_cons_cons w z (ws ++ [x]) (zs ++ [y]), h1, h2, h3,
        levSpec_cons_cons w z ws (zs ++ [y]),
        levSpec_cons_cons w z (ws ++ [x]) zs,
        levSpec_cons_cons w z ws zs]
      generalize levSpec ws (z :: (zs ++ [y])) = A1
      generalize levSpec (w :: ws) (zs ++ [y]) = B1
      generalize levSpec ws (zs ++ [y]) = C1
      generalize levSpec (ws ++ [x]) (z :: zs) = A2
      generalize levSpec (w :: (ws ++ [x])) zs = B2
      generalize levSpec (ws ++ [x]) zs = C2
      generalize levSpec ws (z :: zs) = A3
      generalize levSpec (w :: ws) zs = B3
      generalize levSpec ws zs = C3
      generalize (if x = y then 0 else 1 : Nat) = cxy
      generalize (if w = z then 0 else 1 : Nat) = cwz
      apply le_antisymm <;> simp only [le_min_iff, min_le_iff] <;> omega

/-- Reversing both arguments does not change the recurrence distance. -/
theorem levSpec_reverse : ∀ a b : List Char,
    levSpec a.reverse b.reverse = levSpec a b := by
  intro a
  induction a with
  | nil =>
    intro b
    simp only [List.reverse_nil, levSpec_nil_left, List.length_reverse]
  | cons x as iha =>
    intro b
    induction b with
    | nil =>
      simp only [List.reverse_cons, List.reverse_nil, levSpec_nil_right,
        List.length_append, List.length_cons, List.length_nil,
        List.length_reverse]
    | cons y bs ihb =>
      have h1 : levSpec as.reverse (bs.reverse ++ [y]) = levSpec as (y :: bs) := by
        have := iha (y :: bs)
        simpa using this
      have h2 : levSpec (as.reverse ++ [x]) bs.reverse = levSpec (x :: as) bs := by
        simpa using ihb
      have h3 : levSpec as.reverse bs.reverse = levSpec as bs := iha bs
      simp only [List.reverse_cons]
      rw [levSpec_snoc x y as.reverse bs.reverse, h1, h2, h3,
        levSpec_cons_cons x y as bs]

/-- The recurrence distance is symmetric. -/
theorem levSpec_symm : ∀ a b : List Char, levSpec a b = levSpec b a := by
  intro a
  induction a with
  | nil =>
    intro b
    rw [levSpec_nil_left, levSpec_nil_right]
  | cons x as iha =>
    intro b
    induction b with
    | nil => rw [levSpec_nil_left, levSpec_nil_right]
    | cons y bs ihb =>
      rw [levSpec_cons_cons, levSpec_cons_cons y x bs as,
        iha (y :: bs), ← ihb, iha bs]
      have hc : (if x = y then 0 else 1) = (if y = x then 0 else 1) := by
        simp [eq_comm]
      rw [hc]
      omega

/-- The recurrence distance of a list to itself is zero. -/
theorem levSpec_self (a : List Char) : levSpec a a = 0 := by
  induction a with
  | nil => rfl
  | cons x as ih =>
    rw [levSpec_cons_cons]
    have hc : (if x = x then 0 else 1) = 0 := by simp
    rw [hc, ih]
    omega

/-- A zero recurrence distance forces the lists to be equal. -/
theorem levSpec_eq_zero {a b : List Char} (h : levSpec a b = 0) : a = b := by
  induction a generalizing b with
  | nil =>
    cases b with
    | nil => rfl
    | cons y bs => simp [levSpec_nil_left] at h
  | cons x as ih =>
    cases b with
    | nil => simp [levSpec_nil_right] at h
    | cons y bs =>
      rw [levSpec_cons_cons] at h
      by_cases hxy : x = y
      · subst hxy
        simp only [if_pos rfl] at h
        have hz : levSpec as bs = 0 := by omega
        rw [ih hz]
      · simp only [if_neg hxy] at h
        omega

/-- Taking one more element and reversing prepends the element at the
cut position. -/
theorem take_succ_reverse (l : List Char) (i : Nat) (h : i < l.length) :
    (l.take (i + 1)).reverse = l.get ⟨i, h⟩ :: (l.take i).reverse := by
  rw [List.take_succ]
  rw [List.getElem?_eq_getElem h]
  simp

/-- The DP table of the source computed at entry (i, j) is the
recurrence distance between the reversed prefixes of lengths i and j.
The reversal reflects that the table peels characters off the back of
the prefixes while the recurrence peels them off the front. -/
theorem levDP_take (a b : List Char) :
    ∀ i j, i ≤ a.length → j ≤ b.length →
      levDP a b i j = levSpec ((a.take i).reverse) ((b.take j).reverse) := by
  intro i
  induction i with
  | zero =>
    intro j _ hj
    simp [levDP, levSpec_nil_left, Nat.min_eq_left hj]
  | succ i ihi =>
    intro j
    induction j with
    | zero =>
      intro hi _
      show (i + 1 : Nat) = _
      simp only [List.take_zero, List.reverse_nil, levSpec_nil_right,
        List.length_reverse, List.length_take, inf_eq_min]
      omega
    | succ j ihj =>
      intro hi hj
      have hi' : i < a.length := by omega
      have hj' : j < b.length := by omega
      have lhs_eq : levDP a b (i + 1) (j + 1) =
          min (levDP a b i (j + 1) + 1)
            (min (levDP a b (i + 1) j + 1)
              (levDP a b i j + if a.get? i = b.get? j then 0 else 1)) := rfl
      rw [lhs_eq, ihi (j + 1) (by omega) hj, ihj (by omega) (by omega),
        ihi j (by omega) (by omega),
        take_succ_reverse a i hi', take_succ_reverse b j hj',
        levSpec_cons_cons]
      have hc : (if a.get? i = b.get? j then 0 else 1) =
          (if a.get ⟨i, hi'⟩ = b.get ⟨j, hj'⟩ then 0 else 1) := by
        rw [List.get?_eq_get hi', List.get?_eq_get hj']
        simp
      rw [hc]

/-- The levenshtein function of the source computes the recurrence
distance of the two character lists. -/
theorem levenshtein_eq_levSpec (a b : String) :
    levenshtein a b = levSpec a.toList b.toList := by
  have hdef : levenshtein a b =
      if a.length = 0 then b.length
      else if b.length = 0 then a.length
      else levDP a.toList b.toList a.length b.length := rfl
  rw [hdef]
  split_ifs with hm hn
  · rw [show a.toList = [] from List.length_eq_zero.mp hm, levSpec_nil_left]
    rfl
  · rw [show b.toList = [] from List.length_eq_zero.mp hn, levSpec_nil_right]
    rfl
  · have h1 : levDP a.toList b.toList a.length b.length =
        levSpec ((a.toList.take a.length).reverse)
          ((b.toList.take b.length).reverse) :=
      levDP_take a.toList b.toList a.length b.length le_rfl le_rfl
    rw [show (a.toList.take a.length) = a.toList from List.take_length a.toList,
      show (b.toList.take b.length) = b.toList from List.take_length b.toList] at h1
    rw [h1, levSpec_reverse]

end SettingsPage

/-- The classic distance from the empty list is the length. -/
theorem classicLevenshtein_nil_left (b : List Char) :
    classicLevenshtein [] b = b.length := by
  induction b with
  | nil => simp [classicLevenshtein]
  | cons y bs ih =>
    rw [classicLevenshtein, levenshtein_nil_cons]
    rw [classicLevenshtein] at ih
    rw [ih]
    simp only [Levenshtein.defaultCost_insert, List.length_cons]
    omega

/-- The classic distance to the empty list is the length. -/
theorem classicLevenshtein_nil_right (a : List Char) :
    classicLevenshtein a [] = a.length := by
  induction a with
  | nil => simp [classicLevenshtein]
  | cons x as ih =>
    rw [classicLevenshtein, levenshtein_cons_nil]
    rw [classicLevenshtein] at ih
    rw [ih]
    simp only [Levenshtein.defaultCost_delete, List.length_cons]
    omega

/-- The cons-cons equation of the classic distance with unit costs. -/
theorem classicLevenshtein_cons_cons (x y : Char) (a b : List Char) :
    classicLevenshtein (x :: a) (y :: b) =
      min (1 + classicLevenshtein a (y :: b))
        (min (1 + classicLevenshtein (x :: a) b)
          ((if x = y then 0 else 1) + classicLevenshtein a b)) := by
  rw [classicLevenshtein, levenshtein_cons_cons]
  simp only [Levenshtein.defaultCost_delete, Levenshtein.defaultCost_insert,
    Levenshtein.defaultCost_substitute, inf_eq_min]
  rfl

/-- The recurrence distance agrees with the Levenshtein distance of
Mathlib under the unit cost structure. -/
theorem levSpec_eq_classic : ∀ a b : List Char,
    SettingsPage.levSpec a b = classicLevenshtein a b := by
  intro a
  induction a with
  | nil =>
    intro b
    rw [SettingsPage.levSpec_nil_left, classicLevenshtein_nil_left]
  | cons x as iha =>
    intro b
    induction b with
    | nil =>
      rw [SettingsPage.levSpec_nil_right, classicLevenshtein_nil_right]
    | cons y bs ihb =>
      rw [SettingsPage.levSpec_cons_cons, classicLevenshtein_cons_cons,
        iha (y :: bs), ihb, iha bs]
      generalize classicLevenshtein as (y :: bs) = u
      generalize classicLevenshtein (x :: as) bs = v
      generalize classicLevenshtein as bs = w
      generalize (if x = y then 0 else 1 : Nat) = c
      omega

namespace SettingsPage

/-! ## Helper lemmas: firstDiff -/

/-- The scan returns none exactly when every index of the scanned
window has equal characters (with the out-of-range sentinel). -/
theorem firstDiffGo_eq_none (a b : String) (m : Nat) :
    ∀ fuel i, firstDiffGo a b m i fuel = none ↔
      ∀ j, i ≤ j → j < i + fuel → jsCharAt a j = jsCharAt b j := by
  intro fuel
  induction fuel with
  | zero =>
    intro i
    simp only [firstDiffGo, true_iff]
    intro j h1 h2
    omega
  | succ fuel ih =>
    intro i
    by_cases h : jsCharAt a i = jsCharAt b i
    · rw [show firstDiffGo a b m i (fuel + 1) = firstDiffGo a b m (i + 1) fuel by
        simp [firstDiffGo, h]]
      rw [ih (i + 1)]
      constructor
      · intro H j h1 h2
        by_cases hj : j = i
        · subst hj
          exact h
        · exact H j (by omega) (by omega)
      · intro H j h1 h2
        exact H j (by omega) (by omega)
    · rw [show firstDiffGo a b m i (fuel + 1) =
          some ⟨i, jsSlice a (i - 3) (min m (i + 4)),
            jsSlice b (i - 3) (min m (i + 4))⟩ by
        simp [firstDiffGo, h]]
      simp only [reduceCtorEq, false_iff, not_forall]
      exact ⟨i, le_rfl, by omega, h⟩

/-- What a successful scan reports: the index is the first index of the
window at which the characters differ, and the two context windows are
the slices of the shared range [index - 3, min m (index + 4)). -/
theorem firstDiffGo_eq_some (a b : String) (m : Nat) :
    ∀ fuel i r, firstDiffGo a b m i fuel = some r →
      i ≤ r.index ∧ r.index < i + fuel ∧
      jsCharAt a r.index ≠ jsCharAt b r.index ∧
      (∀ j, i ≤ j → j < r.index → jsCharAt a j = jsCharAt b j) ∧
      r.left = jsSlice a (r.index - 3) (min m (r.index + 4)) ∧
      r.right = jsSlice b (r.index - 3) (min m (r.index + 4)) := by
  intro fuel
  induction fuel with
  | zero =>
    intro i r h
    simp [firstDiffGo] at h
  | succ fuel ih =>
    intro i r h
    by_cases hc : jsCharAt a i = jsCharAt b i
    · rw [show firstDiffGo a b m i (fuel + 1) = firstDiffGo a b m (i + 1) fuel by
        simp [firstDiffGo, hc]] at h
      obtain ⟨h1, h2, h3, h4, h5, h6⟩ := ih (i + 1) r h
      refine ⟨by omega, by omega, h3, ?_, h5, h6⟩
      intro j hj1 hj2
      by_cases hj : j = i
      · subst hj
        exact hc
      · exact h4 j (by omega) hj2
    · rw [show firstDiffGo a b m i (fuel + 1) =
          some ⟨i, jsSlice a (i - 3) (min m (i + 4)),
            jsSlice b (i - 3) (min m (i + 4))⟩ by
        simp [firstDiffGo, hc]] at h
      have hr : r = ⟨i, jsSlice a (i - 3) (min m (i + 4)),
          jsSlice b (i - 3) (min m (i + 4))⟩ :=
        (Option.some.inj h).symm
      subst hr
      refine ⟨le_rfl, ?_, hc, ?_, rfl, rfl⟩
      · show i < i + (fuel + 1)
        omega
      · intro j hj1 hj2
        have hj3 : j < i := hj2
        omega

/-- Two strings whose characters agree (with the out-of-range sentinel)
at every index below the maximum of their lengths are equal. -/
theorem eq_of_agree_below_max (a b : String)
    (h : ∀ j, j < max a.length b.length → jsCharAt a j = jsCharAt b j) :
    a = b := by
  have hall : ∀ j, a.toList.get? j = b.toList.get? j := by
    intro j
    by_cases hj : j < max a.length b.length
    · exact h j hj
    · have ha : a.toList.length ≤ j := by
        have : a.toList.length = a.length := rfl
        omega
      have hb : b.toList.length ≤ j := by
        have : b.toList.length = b.length := rfl
        omega
      rw [List.get?_eq_none.mpr ha, List.get?_eq_none.mpr hb]
  have hdata : a.toList = b.toList := List.ext_get? hall
  exact String.ext hdata

/-! ## Claim theorems -/

/-- C1: the save gate equals matches AND acknowledged AND
(NOT smallEditDetected OR smallEditOverridden); in particular it is
false when matches or acknowledged is false, false on a detected small
edit without the override, and true when matches and acknowledged hold
and either no small edit is detected or the override is set. -/
theorem claim_C1 : ∀ m a sd so : Bool,
    canSaveGate m a sd so = (m && a && (!sd || so))
    ∧ (m = false → canSaveGate m a sd so = false)
    ∧ (a = false → canSaveGate m a sd so = false)
    ∧ (sd = true → so = false → canSaveGate m a sd so = false)
    ∧ (m = true → a = true → (sd = false ∨ so = true) →
        canSaveGate m a sd so = true) := by
  decide

/-- Witness for C1 at concrete inputs: the small-edit row of the truth
table and the all-clear row. -/
theorem claim_C1_witness :
    canSaveGate true true true false = false
    ∧ canSaveGate true true false false = true :=
  ⟨(claim_C1 true true true false).2.2.2.1 rfl rfl,
   (claim_C1 true true false false).2.2.2.2 rfl rfl (Or.inl rfl)⟩

/-- C6: matches holds exactly when both entries are non-empty and
equal; empty versus empty is not a match. -/
theorem claim_C6 : ∀ newKey confirmKey : String,
    (keysMatch newKey confirmKey = true ↔
      newKey ≠ "" ∧ confirmKey ≠ "" ∧ newKey = confirmKey)
    ∧ keysMatch "" "" = false := by
  intro nk ck
  refine ⟨?_, rfl⟩
  unfold keysMatch bothEntered
  rw [Bool.and_eq_true, Bool.and_eq_true]
  simp only [decide_eq_true_eq, beq_iff_eq]
  rw [length_pos_iff, length_pos_iff]
  tauto

/-- Witness for C6: two equal non-empty entries match. -/
theorem claim_C6_witness : keysMatch "abc" "abc" = true :=
  (claim_C6 "abc" "abc").1.mpr ⟨by decide, by decide, rfl⟩

/-- C10: for a non-empty key and a suffix argument at most 0, the mask
is the marker followed by the entire key, because the clamp evaluates
to 0 and slice(-0) returns the whole string. -/
theorem claim_C10 : ∀ (k : String) (suffix : Int), k ≠ "" → suffix ≤ 0 →
    maskKey (some k) suffix = "sk-…" ++ k := by
  intro k suffix hk hs
  have hlen : 0 < k.length := (length_pos_iff k).mpr hk
  have hne : ¬ (k.length = 0) := by omega
  have hcl : (max 0 (min suffix (k.length : Int))).toNat = 0 := by omega
  simp [maskKey, hne, hcl, sliceNeg]

/-- Witness for C10 at a concrete key and a negative suffix. -/
theorem claim_C10_witness : maskKey (some "ab") (-1) = "sk-…" ++ "ab" :=
  claim_C10 "ab" (-1) (by decide) (by decide)

/-- Counterexample to C5 as stated for every visibleSuffixLength: at
suffix 0 with the non-empty secret "ab" the mask is not the marker
followed by the last min(0, 2) = 0 characters (which would be the bare
marker); the code returns the whole key instead. -/
theorem claim_C5_cex :
    maskKey (some "ab") 0 ≠
      "sk-…" ++ lastChars "ab" (min (Int.toNat 0) "ab".length) := by
  decide

/-- C5 (amended to positive suffix lengths): mask of an absent or empty
secret is the placeholder; for a non-empty secret and visibleSuffixLength
at least 1 it is the marker followed by exactly the last
min(visibleSuffixLength, length) characters, whose count is exactly
that minimum; the examples of the specification hold. -/
theorem claim_C5 : ∀ (k : String) (suffix : Int),
    maskKey none suffix = "—"
    ∧ maskKey (some "") suffix = "—"
    ∧ (k ≠ "" → 1 ≤ suffix →
        maskKey (some k) suffix =
          "sk-…" ++ lastChars k (min suffix.toNat k.length)
        ∧ (lastChars k (min suffix.toNat k.length)).length =
            min suffix.toNat k.length)
    ∧ maskKey (some "sk-1234567890") 4 = "sk-…7890"
    ∧ maskKey (some "ab") 4 = "sk-…ab" := by
  intro k suffix
  refine ⟨rfl, rfl, ?_, by decide, by decide⟩
  intro hk hs
  have hlen : 0 < k.length := (length_pos_iff k).mpr hk
  have hne : ¬ (k.length = 0) := by omega
  have hcl : (max 0 (min suffix (k.length : Int))).toNat =
      min suffix.toNat k.length := by omega
  have hpos : ¬ (min suffix.toNat k.length = 0) := by omega
  constructor
  · simp [maskKey, hne, hcl, sliceNeg, hpos, lastChars]
  · have h1 : (lastChars k (min suffix.toNat k.length)).length =
        k.toList.length - (k.length - min suffix.toNat k.length) := by
      show (k.toList.drop _).length = _
      rw [List.length_drop]
    rw [h1]
    have h2 : k.toList.length = k.length := rfl
    omega

/-- Witness for C5 at a concrete secret and suffix length. -/
theorem claim_C5_witness :
    maskKey (some "abcde") 3 =
      "sk-…" ++ lastChars "abcde" (min (Int.toNat 3) "abcde".length) :=
  ((claim_C5 "abcde" 3).2.2.1 (by decide) (by decide)).1

/-- C7: with an absent or empty stored key or candidate, the distance
is the unbounded marker, the small-edit guard is disabled and the
divergence report is none; with both non-empty, the guard holds exactly
when the Levenshtein distance is at most the threshold 2. -/
theorem claim_C7 : ∀ (apiKey : Option String) (newKey : String),
    ((apiKey = none ∨ apiKey = some "" ∨ newKey = "") →
      distanceFromCurrent apiKey newKey = none
      ∧ suspiciousSmallEdit apiKey newKey = false
      ∧ diffMemo apiKey newKey = none)
    ∧ (∀ k, apiKey = some k → k ≠ "" → newKey ≠ "" →
        distanceFromCurrent apiKey newKey = some (levenshtein k newKey)
        ∧ (suspiciousSmallEdit apiKey newKey = true ↔
            levenshtein k newKey ≤ 2)) := by
  intro apiKey newKey
  constructor
  · intro h
    rcases h with h | h | h
    · subst h
      exact ⟨rfl, rfl, rfl⟩
    · subst h
      have he : "".isEmpty = true := rfl
      refine ⟨?_, ?_, ?_⟩ <;>
        simp [distanceFromCurrent, suspiciousSmallEdit, diffMemo, he]
    · subst h
      cases apiKey with
      | none => exact ⟨rfl, rfl, rfl⟩
      | some k =>
        have he : "".isEmpty = true := rfl
        refine ⟨?_, ?_, ?_⟩ <;>
          simp [distanceFromCurrent, suspiciousSmallEdit, diffMemo, he]
  · intro k hk hke hne
    subst hk
    have h1 : k.isEmpty = false := by
      by_cases hb : k.isEmpty
      · exact absurd ((String.isEmpty_iff k).mp hb) hke
      · simpa using hb
    have h2 : newKey.isEmpty = false := by
      by_cases hb : newKey.isEmpty
      · exact absurd ((String.isEmpty_iff newKey).mp hb) hne
      · simpa using hb
    constructor
    · simp [distanceFromCurrent, h1, h2]
    · simp [suspiciousSmallEdit, distanceFromCurrent, h1, h2,
        SMALL_CHANGE_THRESHOLD]

/-- Witness for C7 at an absent stored key. -/
theorem claim_C7_witness :
    distanceFromCurrent none "x" = none
    ∧ suspiciousSmallEdit none "x" = false
    ∧ diffMemo none "x" = none :=
  (claim_C7 none "x").1 (Or.inl rfl)

/-- C2: the levenshtein function of the source is the classic
Levenshtein edit distance: it satisfies the recurrence specification,
agrees with the independent Mathlib definition with unit costs, is
symmetric, is zero on equal strings, satisfies both base cases, and
the two worked examples of the specification hold. -/
theorem claim_C2 : ∀ a b : String,
    levenshtein a b = levSpec a.toList b.toList
    ∧ levSpec a.toList b.toList = classicLevenshtein a.toList b.toList
    ∧ levenshtein a b = levenshtein b a
    ∧ levenshtein a a = 0
    ∧ levenshtein "" b = b.length
    ∧ levenshtein a "" = a.length
    ∧ levenshtein "abcd" "abcf" = 1
    ∧ levenshtein "kitten" "sitting" = 3 := by
  intro a b
  refine ⟨levenshtein_eq_levSpec a b, levSpec_eq_classic _ _, ?_, ?_, ?_, ?_,
    by decide, by decide⟩
  · rw [levenshtein_eq_levSpec a b, levenshtein_eq_levSpec b a, levSpec_symm]
  · rw [levenshtein_eq_levSpec a a, levSpec_self]
  · rfl
  · have hdef : levenshtein a "" =
        if a.length = 0 then ("" : String).length
        else if ("" : String).length = 0 then a.length
        else levDP a.toList ("" : String).toList a.length ("" : String).length :=
      rfl
    by_cases h : a.length = 0
    · rw [hdef, if_pos h, h]
      decide
    · rw [hdef, if_neg h,
        if_pos (by decide : ("" : String).length = 0)]

/-- C9: the distance is zero exactly for equal strings; the forward
direction of the equivalence is the converse the specification leaves
implicit. -/
theorem claim_C9 : ∀ a b : String, levenshtein a b = 0 ↔ a = b := by
  intro a b
  constructor
  · intro h
    rw [levenshtein_eq_levSpec] at h
    exact String.ext (levSpec_eq_zero h)
  · intro h
    subst h
    rw [levenshtein_eq_levSpec, levSpec_self]

/-- Witness for C9: a string at distance zero from itself. -/
theorem claim_C9_witness : levenshtein "q" "q" = 0 :=
  (claim_C9 "q" "q").mpr rfl

/-- At the index min(len a, len b), strings of different lengths always
differ under the out-of-range sentinel: the shorter one is exhausted
while the longer one still has a character. -/
theorem jsCharAt_ne_at_min (a b : String) (hlen : a.length ≠ b.length) :
    jsCharAt a (min a.length b.length) ≠ jsCharAt b (min a.length b.length) := by
  have ha : a.toList.length = a.length := rfl
  have hb : b.toList.length = b.length := rfl
  rcases Nat.lt_or_ge a.length b.length with h | h
  · have hna : jsCharAt a (min a.length b.length) = none := by
      unfold jsCharAt
      exact List.get?_eq_none.mpr (by omega)
    intro he
    have hnb : jsCharAt b (min a.length b.length) = none := by rw [← he, hna]
    unfold jsCharAt at hnb
    rw [List.get?_eq_none] at hnb
    omega
  · have hnb : jsCharAt b (min a.length b.length) = none := by
      unfold jsCharAt
      exact List.get?_eq_none.mpr (by omega)
    intro he
    have hna : jsCharAt a (min a.length b.length) = none := by rw [he, hnb]
    unfold jsCharAt at hna
    rw [List.get?_eq_none] at hna
    omega

/-- C4: firstDiff is none exactly on equal strings; a returned report
carries the smallest index at which the characters differ (with the
out-of-range sentinel), which lies below max(len a, len b), and both
context windows are slices over the shared range
[max(0, i-3), min(max(len a, len b), i+4)); when the strings agree on
their common positions but have different lengths the reported index is
min(len a, len b); the worked examples of the specification hold. -/
theorem claim_C4 : ∀ a b : String,
    (firstDiff a b = none ↔ a = b)
    ∧ (∀ r, firstDiff a b = some r →
        r.index < max a.length b.length
        ∧ jsCharAt a r.index ≠ jsCharAt b r.index
        ∧ (∀ j, j < r.index → jsCharAt a j = jsCharAt b j)
        ∧ r.left = jsSlice a (r.index - 3)
            (min (max a.length b.length) (r.index + 4))
        ∧ r.right = jsSlice b (r.index - 3)
            (min (max a.length b.length) (r.index + 4)))
    ∧ (a.length ≠ b.length →
        (∀ j, j < min a.length b.length → jsCharAt a j = jsCharAt b j) →
        ∃ r, firstDiff a b = some r ∧ r.index = min a.length b.length)
    ∧ firstDiff "abcXdef" "abcYdef" = some ⟨3, "abcXdef", "abcYdef"⟩
    ∧ firstDiff "abc" "abcd" = some ⟨3, "abc", "abcd"⟩ := by
  intro a b
  refine ⟨⟨?_, ?_⟩, ?_, ?_, by decide, by decide⟩
  · intro h
    apply eq_of_agree_below_max
    intro j hj
    have hnone := (firstDiffGo_eq_none a b (max a.length b.length)
      (max a.length b.length) 0).mp h
    exact hnone j (by omega) (by omega)
  · intro h
    subst h
    exact (firstDiffGo_eq_none a a (max a.length a.length)
      (max a.length a.length) 0).mpr (fun j _ _ => rfl)
  · intro r h
    obtain ⟨h1, h2, h3, h4, h5, h6⟩ :=
      firstDiffGo_eq_some a b (max a.length b.length)
        (max a.length b.length) 0 r h
    exact ⟨by omega, h3, fun j hj => h4 j (by omega) hj, h5, h6⟩
  · intro hlen hagree
    cases hfd : firstDiff a b with
    | none =>
      exfalso
      have hnone := (firstDiffGo_eq_none a b (max a.length b.length)
        (max a.length b.length) 0).mp hfd
      have heq : a = b := by
        apply eq_of_agree_below_max
        intro j hj
        exact hnone j (by omega) (by omega)
      exact hlen (by rw [heq])
    | some r =>
      obtain ⟨h1, h2, h3, h4, h5, h6⟩ :=
        firstDiffGo_eq_some a b (max a.length b.length)
          (max a.length b.length) 0 r hfd
      refine ⟨r, rfl, ?_⟩
      by_cases hlt : r.index < min a.length b.length
      · exact absurd (hagree r.index hlt) h3
      · by_cases hgt : min a.length b.length < r.index
        · have hagreemin := h4 (min a.length b.length) (by omega) hgt
          exact absurd hagreemin (jsCharAt_ne_at_min a b hlen)
        · omega

/-- Witness for C4: equal strings report no divergence. -/
theorem claim_C4_witness : firstDiff "zz" "zz" = none :=
  (claim_C4 "zz" "zz").1.mpr rfl

/-- Counterexample to C3 as stated: closing the dialog without saving
does not return the transient fields to their initial values (the
Candidate and the acknowledgement survive the close), and a successful
save also keeps the staged fields while closing; only reopening resets
them. -/
theorem claim_C3_cex :
    (onOpenChange ⟨true, "sk-x", "sk-x", true, true⟩ false).newKey ≠ ""
    ∧ (onOpenChange ⟨true, "sk-x", "sk-x", true, true⟩ false).ackReplace = true
    ∧ ((handleSave none ⟨true, "abcdef", "abcdef", true, false⟩).1).newKey ≠ "" := by
  decide

/-- C3 (amended): closing the dialog, whether by cancel or by a save,
only clears the open flag and leaves the staged fields untouched; the
reset of Candidate, Confirmation, acknowledged and the override to
their empty/false initial values happens on opening instead, so
reopening always re-enters the Open state with a clean slate regardless
of how the dialog was previously closed, and a failed save attempt
changes nothing. -/
theorem claim_C3 : ∀ (apiKey : Option String) (s : PageState),
    onOpenChange s true = ⟨true, "", "", false, false⟩
    ∧ onOpenChange s false = { s with isOpen := false }
    ∧ (canSave apiKey s = true →
        (handleSave apiKey s).1 = { s with isOpen := false })
    ∧ (canSave apiKey s = false → handleSave apiKey s = (s, none)) := by
  intro apiKey s
  refine ⟨rfl, rfl, ?_, ?_⟩
  · intro h
    simp [handleSave, h]
  · intro h
    simp [handleSave, h]

/-- Witness for C3 at a concrete saveable state: the save closes the
dialog and keeps the staged fields. -/
theorem claim_C3_witness :
    (handleSave (some "oldkey") ⟨true, "zzz", "zzz", true, false⟩).1 =
      ⟨false, "zzz", "zzz", true, false⟩ :=
  (claim_C3 (some "oldkey") ⟨true, "zzz", "zzz", true, false⟩).2.2.1 (by decide)

/-- C8: a workflow step emits a store call only for the save event and
only when canSave holds, and then exactly one call carrying the
Candidate; a save attempt with canSave false leaves the state unchanged
and calls nothing; a successful save closes the dialog and forwards the
Candidate. -/
theorem claim_C8 : ∀ (apiKey : Option String) (s : PageState),
    (∀ e s2 v, step apiKey s e = (s2, some v) →
      e = Event.clickSave ∧ canSave apiKey s = true ∧ v = s.newKey)
    ∧ (canSave apiKey s = false →
        step apiKey s Event.clickSave = (s, none))
    ∧ (canSave apiKey s = true →
        step apiKey s Event.clickSave =
          ({ s with isOpen := false }, some s.newKey)) := by
  intro apiKey s
  refine ⟨?_, ?_, ?_⟩
  · intro e s2 v h
    cases e with
    | openChange next => simp [step] at h
    | setNewKey w => simp [step] at h
    | setConfirmKey w => simp [step] at h
    | setAckReplace w => simp [step] at h
    | setForceSmallChange w => simp [step] at h
    | clickCancel => simp [step] at h
    | clickSave =>
      rw [show step apiKey s Event.clickSave = handleSave apiKey s from rfl] at h
      by_cases hc : canSave apiKey s = true
      · rw [handleSave, if_pos hc] at h
        have hv : some s.newKey = some v := congrArg Prod.snd h
        exact ⟨rfl, hc, (Option.some.inj hv).symm⟩
      · rw [handleSave, if_neg hc] at h
        have hv : (none : Option String) = some v := congrArg Prod.snd h
        exact absurd hv (by simp)
  · intro h
    show handleSave apiKey s = (s, none)
    rw [handleSave, if_neg (by simp [h])]
  · intro h
    show handleSave apiKey s = _
    rw [handleSave, if_pos h]

/-- Witness for C8 at a concrete saveable state: the save emits exactly
one store call carrying the Candidate. -/
theorem claim_C8_witness :
    step none ⟨true, "abcd", "abcd", true, false⟩ Event.clickSave =
      (⟨false, "abcd", "abcd", true, false⟩, some "abcd") :=
  (claim_C8 none ⟨true, "abcd", "abcd", true, false⟩).2.2 (by decide)

end SettingsPage
